import Mathlib

/-!
Shallow embedding of the chaining hash map implemented in `src/hash_map.h`
(template class `HashMap<KeyType, ValueType, Hash>`).

Modelling conventions:
* `element_list_` (the C++ `std::list<std::pair<const KeyType, ValueType>>`,
  the record store) is a Lean `List`; its head is the list front, so C++
  `push_front` is `::` and begin-to-end iteration is left-to-right list order.
* A C++ `std::list` iterator is a stable handle to one node.  We model a
  handle as a `Nat` identifier: every record carries a unique id, freshly
  drawn from the counter `next_id_` at insertion.  Dereferencing a handle
  (`*it`, `it->first`, `it->second`) is `deref`, a lookup of the id in
  `element_list_`.  `end()` / "not found" is `none`.
* `hash_map_` (the C++ `std::vector<std::list<iterator>>` bucket table) is a
  `List (List Nat)` of bucket chains of handles; `std::vector::operator[]`
  is `List.getD`, writing a bucket back is `List.set` (out-of-range access,
  UB in C++, is a defaulted read / no-op write; the invariant below shows
  every access the code makes is in range).
* The hash functor `Hash` is a stored function `hasher_ : K → Nat`;
  `size_t` arithmetic is on `Nat` (the quantities involved - sizes and
  masked hashes - never approach 2^64, so no wrap-around is modelled).
* `throw std::out_of_range("Bad request")` is `Except.error "Bad request"`.
* Value-returning const members (`at`, `find`, `hash_function`) are pure
  functions of the state; members that mutate return the new state.
-/

set_option linter.unusedSectionVars false
set_option linter.unusedVariables false

namespace MyStructure

/-- State of a `HashMap<K, V, Hash>` object: the five data members of the
C++ class (`size_`, `table_size_`, `hash_map_`, `element_list_`, `hasher_`)
plus `next_id_`, the modelling counter that supplies fresh node identities
for `std::list` nodes. -/
structure HashMap (K V : Type) where
  size_ : Nat
  table_size_ : Nat
  hash_map_ : List (List Nat)
  element_list_ : List (Nat × K × V)
  next_id_ : Nat
  hasher_ : K → Nat

/-- `kLoadFactor_ = 2` (`// min table_size_/cardinality`). -/
def kLoadFactor_ : Nat := 2

/-- `initialSize_ = 2`. -/
def initialSize_ : Nat := 2

namespace HashMap

variable {K V : Type} [DecidableEq K]

/-- `HashMap(const Hash &hash)`: default-constructed members, then
`hash_map_.resize(table_size_)` with `table_size_ = initialSize_`. -/
def mkEmpty (hash : K → Nat) : HashMap K V :=
  { size_ := 0
    table_size_ := initialSize_
    hash_map_ := List.replicate initialSize_ []
    element_list_ := []
    next_id_ := 0
    hasher_ := hash }

/-- `IdxFromKey`: `hasher_(key) & (table_size_ - 1)`. -/
def IdxFromKey (m : HashMap K V) (key : K) : Nat :=
  m.hasher_ key &&& (m.table_size_ - 1)

/-- `hash_map_[i]`, the bucket chain at index `i`. -/
def bucketAt (m : HashMap K V) (i : Nat) : List Nat :=
  m.hash_map_.getD i []

/-- Dereference a handle: the `(key, value)` payload of the record-store
node with identity `id`, or `none` for a dangling handle. -/
def deref (m : HashMap K V) (id : Nat) : Option (K × V) :=
  (m.element_list_.find? fun r => decide (r.1 = id)).map fun r => r.2

/-- `RecordInMap`: scan the bucket chain at `IdxFromKey key` and return the
first handle whose record's key equals `key` (`IsEqual((*it)->first, key)`),
or `none` for the chain's end. -/
def RecordInMap (m : HashMap K V) (key : K) : Option Nat :=
  (m.bucketAt (m.IdxFromKey key)).find? fun id =>
    (m.deref id).any fun r => decide (r.1 = key)

/-- `find(key)`: the handle produced by `RecordInMap` when it found a
record, else the end sentinel (`none`). -/
def find (m : HashMap K V) (key : K) : Option Nat :=
  m.RecordInMap key

/-- The rebuild loop of `DoubleSize`: walk the record store in order and
`push_back` each record's handle into the bucket at the record's index
under table size `T`. -/
def registerAll (hash : K → Nat) (T : Nat) (rs : List (Nat × K × V))
    (bs : List (List Nat)) : List (List Nat) :=
  rs.foldl
    (fun bs r =>
      bs.set (hash r.2.1 &&& (T - 1)) (bs.getD (hash r.2.1 &&& (T - 1)) [] ++ [r.1]))
    bs

/-- `DoubleSize()`: `table_size_ <<= 1`, reset `size_` to 0, clear and
re-`resize` `hash_map_`, then re-register every record of `element_list_`
in order, incrementing `size_` per record (so `size_` ends at the record
store's length). -/
def DoubleSize (m : HashMap K V) : HashMap K V :=
  { m with
    table_size_ := m.table_size_ <<< 1
    size_ := m.element_list_.length
    hash_map_ :=
      registerAll m.hasher_ (m.table_size_ <<< 1) m.element_list_
        (List.replicate (m.table_size_ <<< 1) []) }

/-- The opening conditional of `insert`: `if (size_ * kLoadFactor_ >=
table_size_) DoubleSize();`. -/
def grown (m : HashMap K V) : HashMap K V :=
  if m.size_ * kLoadFactor_ ≥ m.table_size_ then m.DoubleSize else m

/-- `insert(elem)`: if `size_ * kLoadFactor_ >= table_size_`, call
`DoubleSize()` (the `grown` stage); then compute `idx =
IdxFromKey(elem.first)`; if `find(elem.first) == end()`, `push_front` the
pair onto `element_list_`, `push_back` the new front handle into
`hash_map_[idx]`, and `++size_`; otherwise do nothing further. -/
def insert (m : HashMap K V) (elem : K × V) : HashMap K V :=
  let m1 := m.grown
  let idx := m1.IdxFromKey elem.1
  match m1.find elem.1 with
  | some _ => m1
  | none =>
      { m1 with
        element_list_ := (m1.next_id_, elem) :: m1.element_list_
        hash_map_ := m1.hash_map_.set idx (m1.bucketAt idx ++ [m1.next_id_])
        size_ := m1.size_ + 1
        next_id_ := m1.next_id_ + 1 }

/-- `erase(key)`: if `RecordInMap(key)` found a handle, erase that node
from `element_list_`, erase the handle from its bucket chain, and
`--size_`; otherwise do nothing. -/
def erase (m : HashMap K V) (key : K) : HashMap K V :=
  match m.RecordInMap key with
  | none => m
  | some id =>
      let idx := m.IdxFromKey key
      { m with
        element_list_ := m.element_list_.eraseP fun r => decide (r.1 = id)
        hash_map_ := m.hash_map_.set idx ((m.bucketAt idx).erase id)
        size_ := m.size_ - 1 }

/-- `clear()`: `size_ = 0`, `table_size_ = initialSize_`, clear both
containers, `hash_map_.resize(table_size_)`. -/
def clear (m : HashMap K V) : HashMap K V :=
  { m with
    size_ := 0
    table_size_ := initialSize_
    hash_map_ := List.replicate initialSize_ []
    element_list_ := [] }

/-- `at(key)` (const): `find`, then return `it->second` if found, else
`throw std::out_of_range("Bad request")`.  (Named `at'` because `at` is a
reserved word in Lean.) -/
def at' [Inhabited V] (m : HashMap K V) (key : K) : Except String V :=
  match m.find key with
  | some id => .ok (((m.deref id).map fun r => r.2).getD default)
  | none => .error "Bad request"

/-- `operator[](key)`: if `find(key) != end()` return `it->second` and
leave the map unchanged; else `insert({key, ValueType{}})` and return
`find(key)->second` on the updated map.  Returns the value read together
with the resulting state. -/
def opIndex [Inhabited V] (m : HashMap K V) (key : K) : V × HashMap K V :=
  match m.find key with
  | some id => (((m.deref id).map fun r => r.2).getD default, m)
  | none =>
      let m1 := m.insert (key, (default : V))
      (((m1.find key).bind fun id => (m1.deref id).map fun r => r.2).getD default, m1)

/-- The range constructor `HashMap(begin, end, hash)`: start from the
empty map and `insert` each pair in order. -/
def fromList (hash : K → Nat) (ps : List (K × V)) : HashMap K V :=
  ps.foldl (fun acc p => acc.insert p) (mkEmpty hash)

/-- The copy constructor `HashMap(const HashMap &other)`: a fresh map with
`other.hash_function()` as hasher, then `insert` every element of `other`
in `other`'s iteration order (record-store order, front to back). -/
def copy (other : HashMap K V) : HashMap K V :=
  other.element_list_.foldl (fun acc r => acc.insert r.2) (mkEmpty other.hasher_)

/-- `operator=(const HashMap &other)`: the flag `selfIsOther` models the
pointer test `this == &other`.  When it holds, nothing happens.  Otherwise
the members are reset (`size_ = 0`, new hasher, `table_size_ =
initialSize_`, `hash_map_.resize`, `clear()` - jointly the empty state with
`other`'s hasher) and every element of `other` is re-inserted in `other`'s
iteration order. -/
def opAssign (self other : HashMap K V) (selfIsOther : Bool) : HashMap K V :=
  if selfIsOther then self
  else
    other.element_list_.foldl (fun acc r => acc.insert r.2)
      { self with
        size_ := 0
        hasher_ := other.hasher_
        table_size_ := initialSize_
        hash_map_ := List.replicate initialSize_ []
        element_list_ := [] }

/-- The sequence of `(key, value)` pairs produced by iterating the map
from `begin()` to `end()`. -/
def toPairs (m : HashMap K V) : List (K × V) :=
  m.element_list_.map fun r => r.2

/-- The keys currently stored, in iteration order. -/
def keys (m : HashMap K V) : List K :=
  m.element_list_.map fun r => r.2.1

/-- The value stored at `key`: `find` then dereference.  `none` when the
key is absent. -/
def valueAt (m : HashMap K V) (key : K) : Option V :=
  (m.find key).bind fun id => (m.deref id).map fun r => r.2

/-!
## Generic list helpers

Small facts about `List.getD` / `List.set` used to reason about the
bucket vector.
-/

theorem getD_set_self {α : Type} {l : List α} {i : Nat} {x d : α}
    (h : i < l.length) : (l.set i x).getD i d = x := by
  simp [List.getD, List.getElem?_set_self, h]

theorem getD_set_ne {α : Type} {l : List α} {i j : Nat} {x d : α}
    (h : i ≠ j) : (l.set i x).getD j d = l.getD j d := by
  simp [List.getD, List.getElem?_set_ne h]

theorem getD_of_length_le {α : Type} {l : List α} {i : Nat} {d : α}
    (h : l.length ≤ i) : l.getD i d = d := by
  simp [List.getD, List.getElem?_eq_none h]

theorem getD_replicate_nil {α : Type} {n i : Nat} {d : α} :
    (List.replicate n d).getD i d = d := by
  by_cases h : i < n
  · simp [List.getD, List.getElem?_replicate, h]
  · exact getD_of_length_le (by simpa using Nat.le_of_not_lt h)

theorem option_any_iff {α : Type} {o : Option α} {p : α → Bool} :
    o.any p = true ↔ ∃ a, o = some a ∧ p a = true := by
  cases o <;> simp [Option.any]

/-!
## Handle dereference and bucket index bounds
-/

theorem IdxFromKey_lt (m : HashMap K V) (key : K) (h : 0 < m.table_size_) :
    m.IdxFromKey key < m.table_size_ :=
  Nat.lt_of_le_of_lt Nat.and_le_right (Nat.sub_lt h Nat.one_pos)

theorem deref_some_mem {m : HashMap K V} {id : Nat} {p : K × V}
    (h : m.deref id = some p) : (id, p) ∈ m.element_list_ := by
  unfold deref at h
  obtain ⟨r, hr, hrp⟩ := Option.map_eq_some'.mp h
  have hmem := List.mem_of_find?_eq_some hr
  have hid : r.1 = id := by simpa using List.find?_some hr
  have : r = (id, p) := by
    cases r with
    | mk a b => simp_all
  exact this ▸ hmem

theorem mem_deref {m : HashMap K V}
    (hnd : (m.element_list_.map fun r => r.1).Nodup) {id : Nat} {p : K × V}
    (h : (id, p) ∈ m.element_list_) : m.deref id = some p := by
  have hsome : (m.element_list_.find? fun r => decide (r.1 = id)).isSome := by
    rw [List.find?_isSome]
    exact ⟨(id, p), h, by simp⟩
  obtain ⟨r, hr⟩ := Option.isSome_iff_exists.mp hsome
  have hid : r.1 = id := by simpa using List.find?_some hr
  have hmem := List.mem_of_find?_eq_some hr
  have : r = (id, p) :=
    List.inj_on_of_nodup_map hnd hmem h (by simpa using hid)
  unfold deref
  rw [hr, this]
  rfl

/-!
## The well-formedness invariant

These are the representation invariants the C++ code maintains between
public operations: bucket vector length matches `table_size_`, `size_`
counts the record store, `table_size_` is a power of two (at least 2),
the load factor bound, freshness and uniqueness of handles, uniqueness of
keys, and mutual consistency of the bucket index and the record store.
-/

structure Inv (m : HashMap K V) : Prop where
  hlen : m.hash_map_.length = m.table_size_
  hsize : m.size_ = m.element_list_.length
  hpow : ∃ k, m.table_size_ = 2 ^ (k + 1)
  hload : m.size_ * 2 ≤ m.table_size_
  hfresh : ∀ r ∈ m.element_list_, r.1 < m.next_id_
  hidnd : (m.element_list_.map fun r => r.1).Nodup
  hkeynd : (m.element_list_.map fun r => r.2.1).Nodup
  hsound : ∀ i : Nat, ∀ id ∈ m.bucketAt i,
    ∃ r ∈ m.element_list_, r.1 = id ∧ m.IdxFromKey r.2.1 = i
  hcompl : ∀ r ∈ m.element_list_, r.1 ∈ m.bucketAt (m.IdxFromKey r.2.1)
  hbnd : ∀ i : Nat, (m.bucketAt i).Nodup

theorem Inv.table_pos {m : HashMap K V} (h : Inv m) : 0 < m.table_size_ := by
  obtain ⟨k, hk⟩ := h.hpow
  exact hk ▸ Nat.pos_pow_of_pos (k + 1) (by decide)

/-!
## The specification of `RecordInMap` / `find`
-/

theorem RecordInMap_some {m : HashMap K V} {key : K} {id : Nat}
    (h : m.RecordInMap key = some id) :
    ∃ v, m.deref id = some (key, v) ∧ (id, key, v) ∈ m.element_list_ := by
  unfold RecordInMap at h
  have hpred := List.find?_some h
  obtain ⟨r, hr, hrk⟩ := option_any_iff.mp hpred
  have hk : r.1 = key := by simpa using hrk
  refine ⟨r.2, ?_, ?_⟩
  · rw [hr]
    cases r with
    | mk a b => simp_all
  · have := deref_some_mem hr
    cases r with
    | mk a b => simp_all

theorem find_eq_none_of_not_mem {m : HashMap K V} {key : K}
    (h : key ∉ m.keys) : m.find key = none := by
  unfold find RecordInMap
  rw [List.find?_eq_none]
  intro id _ hpred
  obtain ⟨r, hr, hrk⟩ := option_any_iff.mp hpred
  have hk : r.1 = key := by simpa using hrk
  exact h (hk ▸ List.mem_map_of_mem (fun r => r.2.1) (deref_some_mem hr))

theorem find_isSome_of_mem {m : HashMap K V} (hInv : Inv m) {key : K}
    (h : key ∈ m.keys) : (m.find key).isSome := by
  obtain ⟨r, hr, hrk⟩ := List.mem_map.mp h
  unfold find RecordInMap
  rw [List.find?_isSome]
  refine ⟨r.1, ?_, ?_⟩
  · have := hInv.hcompl r hr
    rwa [hrk] at this
  · rw [option_any_iff]
    refine ⟨r.2, ?_, by simp [hrk]⟩
    have : (r.1, r.2) ∈ m.element_list_ := by simpa using hr
    exact mem_deref hInv.hidnd this

theorem find_eq_none_iff {m : HashMap K V} (hInv : Inv m) {key : K} :
    m.find key = none ↔ key ∉ m.keys := by
  constructor
  · intro h hmem
    have := find_isSome_of_mem hInv hmem
    rw [h] at this
    simp at this
  · exact find_eq_none_of_not_mem

theorem valueAt_some_iff {m : HashMap K V} (hInv : Inv m) {key : K} {v : V} :
    m.valueAt key = some v ↔ (key, v) ∈ m.toPairs := by
  constructor
  · intro h
    unfold valueAt at h
    obtain ⟨id, hid, hcast⟩ := Option.bind_eq_some.mp h
    obtain ⟨v0, hder, hmem⟩ := RecordInMap_some hid
    rw [hder] at hcast
    simp at hcast
    subst hcast
    exact List.mem_map_of_mem (fun r => r.2) hmem
  · intro h
    obtain ⟨r, hr, hrp⟩ := List.mem_map.mp h
    obtain ⟨idr, kr, vr⟩ := r
    simp only [Prod.mk.injEq] at hrp
    have hkeymem : key ∈ m.keys :=
      List.mem_map.mpr ⟨(idr, kr, vr), hr, by simp [hrp.1]⟩
    obtain ⟨id, hid⟩ := Option.isSome_iff_exists.mp (find_isSome_of_mem hInv hkeymem)
    obtain ⟨v0, hder, hmem⟩ := RecordInMap_some hid
    have hreq : (idr, kr, vr) = (id, key, v0) :=
      List.inj_on_of_nodup_map hInv.hkeynd hr hmem (by simp [hrp.1])
    simp only [Prod.mk.injEq] at hreq
    have hv0 : v0 = v := by rw [← hreq.2.2, hrp.2]
    unfold valueAt
    rw [hid]
    simp [hder, hv0]

/-!
## Behaviour of the `DoubleSize` rebuild loop
-/

theorem registerAll_nil {hash : K → Nat} {T : Nat} {bs : List (List Nat)} :
    registerAll (V := V) hash T [] bs = bs := rfl

theorem registerAll_cons {hash : K → Nat} {T : Nat} {r : Nat × K × V}
    {rs : List (Nat × K × V)} {bs : List (List Nat)} :
    registerAll hash T (r :: rs) bs =
      registerAll hash T rs
        (bs.set (hash r.2.1 &&& (T - 1))
          (bs.getD (hash r.2.1 &&& (T - 1)) [] ++ [r.1])) := rfl

theorem registerAll_length {hash : K → Nat} {T : Nat} (rs : List (Nat × K × V))
    (bs : List (List Nat)) : (registerAll hash T rs bs).length = bs.length := by
  induction rs generalizing bs with
  | nil => rfl
  | cons r rs ih => rw [registerAll_cons, ih, List.length_set]

theorem registerAll_getD {hash : K → Nat} {T : Nat} (rs : List (Nat × K × V))
    (bs : List (List Nat)) (hlen : bs.length = T) {i : Nat} (hi : i < T) :
    (registerAll hash T rs bs).getD i [] =
      bs.getD i [] ++
        (rs.filter fun r => decide ((hash r.2.1 &&& (T - 1)) = i)).map fun r => r.1 := by
  induction rs generalizing bs with
  | nil => simp [registerAll_nil]
  | cons r rs ih =>
    rw [registerAll_cons]
    have hT : 0 < T := Nat.lt_of_le_of_lt (Nat.zero_le i) hi
    have hj : (hash r.2.1 &&& (T - 1)) < bs.length := by
      rw [hlen]
      exact Nat.lt_of_le_of_lt Nat.and_le_right (Nat.sub_lt hT Nat.one_pos)
    rw [ih _ (by rw [List.length_set]; exact hlen)]
    by_cases hij : (hash r.2.1 &&& (T - 1)) = i
    · rw [← hij, getD_set_self hj]
      simp [List.filter_cons, hij, List.append_assoc]
    · rw [getD_set_ne hij]
      simp [List.filter_cons, hij]

theorem DoubleSize_table (m : HashMap K V) :
    m.DoubleSize.table_size_ = m.table_size_ * 2 := by
  simp [DoubleSize, Nat.shiftLeft_eq]

theorem DoubleSize_element_list (m : HashMap K V) :
    m.DoubleSize.element_list_ = m.element_list_ := rfl

theorem DoubleSize_size (m : HashMap K V) :
    m.DoubleSize.size_ = m.element_list_.length := rfl

theorem Inv_DoubleSize {m : HashMap K V} (hInv : Inv m) : Inv m.DoubleSize := by
  obtain ⟨k, hk⟩ := hInv.hpow
  have hT2 : m.DoubleSize.table_size_ = m.table_size_ * 2 := DoubleSize_table m
  have hTpos : 0 < m.table_size_ := hInv.table_pos
  have hrep : (List.replicate (m.table_size_ <<< 1) ([] : List Nat)).length =
      m.table_size_ <<< 1 := List.length_replicate _ _
  have htt : m.DoubleSize.table_size_ = m.table_size_ <<< 1 := rfl
  have hbucket : ∀ i : Nat, i < m.table_size_ <<< 1 →
      m.DoubleSize.bucketAt i =
        (m.element_list_.filter fun r =>
          decide ((m.hasher_ r.2.1 &&& (m.table_size_ <<< 1 - 1)) = i)).map
            fun r => r.1 := by
    intro i hi
    show (registerAll m.hasher_ (m.table_size_ <<< 1) m.element_list_
        (List.replicate (m.table_size_ <<< 1) [])).getD i [] = _
    rw [registerAll_getD _ _ hrep hi, getD_replicate_nil]
    simp
  have hbucket_nil : ∀ i : Nat, ¬ i < m.table_size_ <<< 1 →
      m.DoubleSize.bucketAt i = [] := by
    intro i hi
    apply getD_of_length_le
    show (registerAll _ _ _ _).length ≤ i
    rw [registerAll_length, hrep]
    exact Nat.le_of_not_lt hi
  refine ⟨?_, rfl, ⟨k + 1, ?_⟩, ?_, hInv.hfresh, hInv.hidnd, hInv.hkeynd, ?_, ?_, ?_⟩
  · show (registerAll _ _ _ _).length = _
    rw [registerAll_length, hrep, htt]
  · rw [hT2, hk]
    ring
  · rw [DoubleSize_size, hT2, ← hInv.hsize]
    have := hInv.hload
    omega
  · intro i id hid
    by_cases hi : i < m.table_size_ <<< 1
    · rw [hbucket i hi] at hid
      obtain ⟨r, hrf, hrid⟩ := List.mem_map.mp hid
      have hrl := List.mem_of_mem_filter hrf
      have hpred := List.of_mem_filter hrf
      refine ⟨r, hrl, hrid, ?_⟩
      show m.DoubleSize.hasher_ r.2.1 &&& (m.DoubleSize.table_size_ - 1) = i
      rw [htt]
      simpa using hpred
    · rw [hbucket_nil i hi] at hid
      simp at hid
  · intro r hr
    have hi : m.DoubleSize.IdxFromKey r.2.1 < m.table_size_ <<< 1 := by
      rw [← htt]
      exact IdxFromKey_lt _ _ (by rw [hT2]; omega)
    rw [hbucket _ hi]
    refine List.mem_map.mpr ⟨r, List.mem_filter.mpr ⟨hr, ?_⟩, rfl⟩
    show decide ((m.hasher_ r.2.1 &&& (m.table_size_ <<< 1 - 1)) = _) = true
    rw [decide_eq_true_eq]
    rfl
  · intro i
    by_cases hi : i < m.table_size_ <<< 1
    · rw [hbucket i hi]
      refine List.Nodup.sublist ?_ hInv.hidnd
      exact List.Sublist.map _ (List.filter_sublist _)
    · rw [hbucket_nil i hi]
      exact List.nodup_nil

/-!
## The `grown` stage of `insert`
-/

theorem grown_element_list (m : HashMap K V) :
    m.grown.element_list_ = m.element_list_ := by
  unfold grown
  split <;> rfl

theorem grown_next_id (m : HashMap K V) : m.grown.next_id_ = m.next_id_ := by
  unfold grown
  split <;> rfl

theorem grown_hasher (m : HashMap K V) : m.grown.hasher_ = m.hasher_ := by
  unfold grown
  split <;> rfl

theorem grown_keys (m : HashMap K V) : m.grown.keys = m.keys := by
  unfold keys
  rw [grown_element_list]

theorem grown_toPairs (m : HashMap K V) : m.grown.toPairs = m.toPairs := by
  unfold toPairs
  rw [grown_element_list]

theorem Inv_grown {m : HashMap K V} (hInv : Inv m) : Inv m.grown := by
  unfold grown
  split
  · exact Inv_DoubleSize hInv
  · exact hInv

theorem grown_load {m : HashMap K V} (hInv : Inv m) :
    m.grown.size_ * 2 < m.grown.table_size_ := by
  unfold grown
  split
  · rename_i hcond
    have h1 : m.DoubleSize.size_ = m.size_ := by
      rw [DoubleSize_size]
      exact hInv.hsize.symm
    rw [h1, DoubleSize_table]
    have hload := hInv.hload
    have hTpos := hInv.table_pos
    unfold kLoadFactor_ at hcond
    omega
  · rename_i hcond
    unfold kLoadFactor_ at hcond
    omega

theorem grown_table_ge (m : HashMap K V) :
    m.table_size_ ≤ m.grown.table_size_ := by
  unfold grown
  split
  · rw [DoubleSize_table]
    omega
  · exact Nat.le_refl _

/-!
## `insert`: case analysis and invariant preservation
-/

theorem insert_eq (m : HashMap K V) (e : K × V) :
    m.insert e =
      match m.grown.find e.1 with
      | some _ => m.grown
      | none =>
          { m.grown with
            element_list_ := (m.grown.next_id_, e) :: m.grown.element_list_
            hash_map_ := m.grown.hash_map_.set (m.grown.IdxFromKey e.1)
              (m.grown.bucketAt (m.grown.IdxFromKey e.1) ++ [m.grown.next_id_])
            size_ := m.grown.size_ + 1
            next_id_ := m.grown.next_id_ + 1 } := rfl

theorem insert_of_mem {m : HashMap K V} (hInv : Inv m) {e : K × V}
    (h : e.1 ∈ m.keys) : m.insert e = m.grown := by
  have hmem : e.1 ∈ m.grown.keys := by
    rw [grown_keys]
    exact h
  obtain ⟨id, hid⟩ :=
    Option.isSome_iff_exists.mp (find_isSome_of_mem (Inv_grown hInv) hmem)
  rw [insert_eq, hid]

theorem insert_element_list_of_mem {m : HashMap K V} (hInv : Inv m)
    {e : K × V} (h : e.1 ∈ m.keys) :
    (m.insert e).element_list_ = m.element_list_ := by
  rw [insert_of_mem hInv h, grown_element_list]

theorem insert_element_list_of_not_mem {m : HashMap K V} {e : K × V}
    (h : e.1 ∉ m.keys) :
    (m.insert e).element_list_ = (m.next_id_, e) :: m.element_list_ := by
  have h' : m.grown.find e.1 = none := by
    apply find_eq_none_of_not_mem
    rw [grown_keys]
    exact h
  rw [insert_eq, h']
  show (m.grown.next_id_, e) :: m.grown.element_list_ = _
  rw [grown_next_id, grown_element_list]

theorem insert_toPairs_of_not_mem {m : HashMap K V} {e : K × V}
    (h : e.1 ∉ m.keys) : (m.insert e).toPairs = e :: m.toPairs := by
  unfold toPairs
  rw [insert_element_list_of_not_mem h]
  rfl

theorem insert_keys_of_not_mem {m : HashMap K V} {e : K × V}
    (h : e.1 ∉ m.keys) : (m.insert e).keys = e.1 :: m.keys := by
  unfold keys
  rw [insert_element_list_of_not_mem h]
  rfl

theorem insert_table (m : HashMap K V) (e : K × V) :
    (m.insert e).table_size_ = m.grown.table_size_ := by
  rw [insert_eq]
  cases h : m.grown.find e.1 <;> rfl

theorem Inv_insert {m : HashMap K V} (hInv : Inv m) (e : K × V) :
    Inv (m.insert e) := by
  have hInv1 : Inv m.grown := Inv_grown hInv
  have hload1 : m.grown.size_ * 2 < m.grown.table_size_ := grown_load hInv
  rw [insert_eq]
  cases hfind : m.grown.find e.1 with
  | some id => exact hInv1
  | none =>
    have hkey : e.1 ∉ m.grown.keys := by
      intro hmem
      have := find_isSome_of_mem hInv1 hmem
      rw [hfind] at this
      simp at this
    set g := m.grown with hg
    set idx := g.IdxFromKey e.1 with hidx
    have hidxlt : idx < g.table_size_ := IdxFromKey_lt g e.1 hInv1.table_pos
    have hidxlt' : idx < g.hash_map_.length := by
      rw [hInv1.hlen]
      exact hidxlt
    refine ⟨?_, ?_, hInv1.hpow, ?_, ?_, ?_, ?_, ?_, ?_, ?_⟩
    · show (g.hash_map_.set idx _).length = g.table_size_
      rw [List.length_set]
      exact hInv1.hlen
    · show g.size_ + 1 = ((g.next_id_, e) :: g.element_list_).length
      rw [List.length_cons, hInv1.hsize]
    · show (g.size_ + 1) * 2 ≤ g.table_size_
      obtain ⟨k, hk⟩ := hInv1.hpow
      have h2 : g.table_size_ = 2 * 2 ^ k := by
        rw [hk]
        ring
      omega
    · intro r hr
      rcases List.mem_cons.mp hr with h1 | h1
      · show r.1 < g.next_id_ + 1
        rw [h1]
        omega
      · have := hInv1.hfresh r h1
        show r.1 < g.next_id_ + 1
        omega
    · show (((g.next_id_, e) :: g.element_list_).map fun r => r.1).Nodup
      rw [List.map_cons]
      refine List.nodup_cons.mpr ⟨?_, hInv1.hidnd⟩
      intro hmem
      obtain ⟨r, hr, hrid⟩ := List.mem_map.mp hmem
      have := hInv1.hfresh r hr
      omega
    · show (((g.next_id_, e) :: g.element_list_).map fun r => r.2.1).Nodup
      rw [List.map_cons]
      exact List.nodup_cons.mpr ⟨hkey, hInv1.hkeynd⟩
    · intro i id hid
      have hbuck : id ∈ (g.hash_map_.set idx (g.bucketAt idx ++ [g.next_id_])).getD i [] :=
        hid
      by_cases hi : idx = i
      · subst hi
        rw [getD_set_self hidxlt'] at hbuck
        rcases List.mem_append.mp hbuck with h1 | h1
        · obtain ⟨r, hr, hrid, hri⟩ := hInv1.hsound idx id h1
          exact ⟨r, List.mem_cons_of_mem _ hr, hrid, hri⟩
        · have hidv : id = g.next_id_ := by simpa using h1
          exact ⟨(g.next_id_, e), List.mem_cons_self _ _, hidv.symm, rfl⟩
      · rw [getD_set_ne hi] at hbuck
        obtain ⟨r, hr, hrid, hri⟩ := hInv1.hsound i id hbuck
        exact ⟨r, List.mem_cons_of_mem _ hr, hrid, hri⟩
    · intro r hr
      rcases List.mem_cons.mp hr with h1 | h1
      · subst h1
        show g.next_id_ ∈ (g.hash_map_.set idx _).getD idx []
        rw [getD_set_self hidxlt']
        exact List.mem_append_right _ (List.mem_singleton.mpr rfl)
      · have hmem := hInv1.hcompl r h1
        by_cases hi : idx = g.IdxFromKey r.2.1
        · show r.1 ∈ (g.hash_map_.set idx _).getD (g.IdxFromKey r.2.1) []
          rw [← hi, getD_set_self hidxlt']
          rw [← hi] at hmem
          exact List.mem_append_left _ hmem
        · show r.1 ∈ (g.hash_map_.set idx _).getD (g.IdxFromKey r.2.1) []
          rw [getD_set_ne hi]
          exact hmem
    · intro i
      by_cases hi : idx = i
      · subst hi
        show ((g.hash_map_.set idx (g.bucketAt idx ++ [g.next_id_])).getD idx []).Nodup
        rw [getD_set_self hidxlt']
        rw [List.nodup_append]
        refine ⟨hInv1.hbnd idx, List.nodup_singleton _, ?_⟩
        intro a ha hb
        have hav : a = g.next_id_ := by simpa using hb
        obtain ⟨r, hr, hrid, _⟩ := hInv1.hsound idx a ha
        have := hInv1.hfresh r hr
        omega
      · show ((g.hash_map_.set idx _).getD i []).Nodup
        rw [getD_set_ne hi]
        exact hInv1.hbnd i

/-!
## `erase`: case analysis and invariant preservation
-/

theorem erase_eq (m : HashMap K V) (key : K) :
    m.erase key =
      match m.RecordInMap key with
      | none => m
      | some id =>
          { m with
            element_list_ := m.element_list_.eraseP fun r => decide (r.1 = id)
            hash_map_ := m.hash_map_.set (m.IdxFromKey key)
              ((m.bucketAt (m.IdxFromKey key)).erase id)
            size_ := m.size_ - 1 } := rfl

theorem erase_of_not_mem {m : HashMap K V} {key : K} (h : key ∉ m.keys) :
    m.erase key = m := by
  have hrec : m.RecordInMap key = none := find_eq_none_of_not_mem h
  rw [erase_eq, hrec]

theorem erase_element_list {m : HashMap K V} (hInv : Inv m) {key : K}
    {id : Nat} (hrec : m.RecordInMap key = some id) :
    ∃ v l1 l2,
      m.element_list_ = l1 ++ (id, key, v) :: l2 ∧
      (m.erase key).element_list_ = l1 ++ l2 ∧
      m.element_list_.eraseP (fun r => decide (r.1 = id)) = l1 ++ l2 := by
  obtain ⟨v, hder, hmem⟩ := RecordInMap_some hrec
  have hpa : (fun r : Nat × K × V => decide (r.1 = id)) (id, key, v) = true := by
    simp
  obtain ⟨a', l1, l2, hl1, hpa', hl, herase⟩ :=
    @List.exists_of_eraseP _ (fun r => decide (r.1 = id)) _ _ hmem hpa
  have ha'mem : a' ∈ m.element_list_ := by
    rw [hl]
    exact List.mem_append_right _ (List.mem_cons_self _ _)
  have ha' : a' = (id, key, v) :=
    List.inj_on_of_nodup_map hInv.hidnd ha'mem hmem (by simpa using hpa')
  rw [ha'] at hl
  refine ⟨v, l1, l2, hl, ?_, herase⟩
  rw [erase_eq, hrec]
  exact herase

theorem Inv_erase {m : HashMap K V} (hInv : Inv m) (key : K) :
    Inv (m.erase key) := by
  cases hrec : m.RecordInMap key with
  | none =>
    rw [erase_eq, hrec]
    exact hInv
  | some id =>
    obtain ⟨v, l1, l2, hl, _, herase⟩ := erase_element_list hInv hrec
    have hmem : (id, key, v) ∈ m.element_list_ := by
      rw [hl]
      exact List.mem_append_right _ (List.mem_cons_self _ _)
    set idx := m.IdxFromKey key with hidx
    have hidxlt' : idx < m.hash_map_.length := by
      rw [hInv.hlen]
      exact IdxFromKey_lt m key hInv.table_pos
    have hsubl : List.Sublist (l1 ++ l2) m.element_list_ := by
      rw [← herase]
      exact List.eraseP_sublist _
    have hid_not : id ∉ (l1 ++ l2).map fun r => r.1 := by
      have h1 := hInv.hidnd
      rw [hl, List.map_append, List.map_cons] at h1
      have h2 := (List.nodup_cons.mp (List.nodup_middle.mp h1)).1
      rw [List.map_append]
      simpa using h2
    have hmem_of : ∀ r ∈ l1 ++ l2, r ∈ m.element_list_ :=
      fun r hr => hsubl.subset hr
    have hne_r0 : ∀ r ∈ l1 ++ l2, r ≠ (id, key, v) := by
      intro r hr hcontr
      apply hid_not
      exact List.mem_map.mpr ⟨r, hr, by rw [hcontr]⟩
    have hfst_ne : ∀ r ∈ l1 ++ l2, r.1 ≠ id := by
      intro r hr hcontr
      exact hne_r0 r hr
        (List.inj_on_of_nodup_map hInv.hidnd (hmem_of r hr) hmem (by simpa using hcontr))
    have hbucket_mem : ∀ a ∈ (m.bucketAt idx).erase id,
        a ∈ m.bucketAt idx ∧ a ≠ id := by
      intro a ha
      refine ⟨List.mem_of_mem_erase ha, ?_⟩
      intro hcontr
      rw [hcontr] at ha
      exact (hInv.hbnd idx).not_mem_erase ha
    rw [erase_eq, hrec]
    refine ⟨?_, ?_, hInv.hpow, ?_, ?_, ?_, ?_, ?_, ?_, ?_⟩
    · show (m.hash_map_.set idx _).length = m.table_size_
      rw [List.length_set]
      exact hInv.hlen
    · show m.size_ - 1 = (m.element_list_.eraseP fun r => decide (r.1 = id)).length
      rw [List.length_eraseP_of_mem hmem (by simp), hInv.hsize]
    · show (m.size_ - 1) * 2 ≤ m.table_size_
      have := hInv.hload
      omega
    · intro r hr
      show r.1 < m.next_id_
      have hr' : r ∈ l1 ++ l2 := by
        rw [← herase]
        exact hr
      exact hInv.hfresh r (hmem_of r hr')
    · show ((m.element_list_.eraseP fun r => decide (r.1 = id)).map fun r => r.1).Nodup
      refine List.Nodup.sublist ?_ hInv.hidnd
      exact List.Sublist.map _ (List.eraseP_sublist _)
    · show ((m.element_list_.eraseP fun r => decide (r.1 = id)).map fun r => r.2.1).Nodup
      refine List.Nodup.sublist ?_ hInv.hkeynd
      exact List.Sublist.map _ (List.eraseP_sublist _)
    · intro i a ha
      have ha' : a ∈ (m.hash_map_.set idx ((m.bucketAt idx).erase id)).getD i [] := ha
      by_cases hi : idx = i
      · subst hi
        rw [getD_set_self hidxlt'] at ha'
        obtain ⟨hmem', hne⟩ := hbucket_mem a ha'
        obtain ⟨r, hr, hrid, hri⟩ := hInv.hsound idx a hmem'
        refine ⟨r, ?_, hrid, hri⟩
        show r ∈ m.element_list_.eraseP fun r => decide (r.1 = id)
        rw [herase]
        have hrne : r ≠ (id, key, v) := by
          intro hcontr
          rw [hcontr] at hrid
          exact hne hrid.symm
        rw [hl] at hr
        rcases List.mem_append.mp hr with h1 | h1
        · exact List.mem_append_left _ h1
        · rcases List.mem_cons.mp h1 with h2 | h2
          · exact absurd h2 hrne
          · exact List.mem_append_right _ h2
      · rw [getD_set_ne hi] at ha'
        obtain ⟨r, hr, hrid, hri⟩ := hInv.hsound i a ha'
        refine ⟨r, ?_, hrid, hri⟩
        show r ∈ m.element_list_.eraseP fun r => decide (r.1 = id)
        rw [herase]
        have hrne : r ≠ (id, key, v) := by
          intro hcontr
          rw [hcontr] at hri
          exact hi hri
        rw [hl] at hr
        rcases List.mem_append.mp hr with h1 | h1
        · exact List.mem_append_left _ h1
        · rcases List.mem_cons.mp h1 with h2 | h2
          · exact absurd h2 hrne
          · exact List.mem_append_right _ h2
    · intro r hr
      have hr' : r ∈ l1 ++ l2 := by
        rw [← herase]
        exact hr
      have hrl := hmem_of r hr'
      have hcompl := hInv.hcompl r hrl
      by_cases hi : idx = m.IdxFromKey r.2.1
      · show r.1 ∈ (m.hash_map_.set idx _).getD (m.IdxFromKey r.2.1) []
        rw [← hi, getD_set_self hidxlt']
        rw [← hi] at hcompl
        exact (List.mem_erase_of_ne (hfst_ne r hr')).mpr hcompl
      · show r.1 ∈ (m.hash_map_.set idx _).getD (m.IdxFromKey r.2.1) []
        rw [getD_set_ne hi]
        exact hcompl
    · intro i
      by_cases hi : idx = i
      · subst hi
        show ((m.hash_map_.set idx ((m.bucketAt idx).erase id)).getD idx []).Nodup
        rw [getD_set_self hidxlt']
        exact List.Nodup.sublist (List.erase_sublist _ _) (hInv.hbnd idx)
      · show ((m.hash_map_.set idx _).getD i []).Nodup
        rw [getD_set_ne hi]
        exact hInv.hbnd i

theorem erase_keys_not_mem {m : HashMap K V} (hInv : Inv m) (key : K) :
    key ∉ (m.erase key).keys := by
  cases hrec : m.RecordInMap key with
  | none =>
    rw [erase_eq, hrec]
    intro hmem
    have := find_isSome_of_mem hInv hmem
    have hfind : m.find key = none := hrec
    rw [hfind] at this
    simp at this
  | some id =>
    obtain ⟨v, l1, l2, hl, hlist, _⟩ := erase_element_list hInv hrec
    intro hmem
    unfold keys at hmem
    rw [hlist] at hmem
    obtain ⟨r, hr, hrk⟩ := List.mem_map.mp hmem
    have hkeynd := hInv.hkeynd
    rw [hl, List.map_append, List.map_cons] at hkeynd
    have hmid := (List.nodup_cons.mp (List.nodup_middle.mp hkeynd)).1
    apply hmid
    rw [← List.map_append]
    exact List.mem_map.mpr ⟨r, hr, hrk⟩

/-!
## Empty-like states, folded insertion, reachability
-/

theorem Inv_reset (next : Nat) (hash : K → Nat) :
    Inv (⟨0, initialSize_, List.replicate initialSize_ [], [], next, hash⟩ :
      HashMap K V) := by
  refine ⟨?_, rfl, ⟨0, rfl⟩, by simp, ?_, ?_, ?_, ?_, ?_, ?_⟩
  · exact List.length_replicate _ _
  · intro r hr
    simp at hr
  · simp
  · simp
  · intro i id hid
    have : (⟨0, initialSize_, List.replicate initialSize_ [], [], next, hash⟩ :
        HashMap K V).bucketAt i = [] := getD_replicate_nil
    rw [this] at hid
    simp at hid
  · intro r hr
    simp at hr
  · intro i
    have : (⟨0, initialSize_, List.replicate initialSize_ [], [], next, hash⟩ :
        HashMap K V).bucketAt i = [] := getD_replicate_nil
    rw [this]
    exact List.nodup_nil

theorem Inv_mkEmpty (hash : K → Nat) : Inv (mkEmpty hash : HashMap K V) :=
  Inv_reset 0 hash

theorem Inv_clear (m : HashMap K V) : Inv m.clear :=
  Inv_reset m.next_id_ m.hasher_

theorem Inv_foldl_insert {α : Type} (l : List α) (f : α → K × V)
    {acc : HashMap K V} (hInv : Inv acc) :
    Inv (l.foldl (fun a r => a.insert (f r)) acc) := by
  induction l generalizing acc with
  | nil => exact hInv
  | cons r l ih => exact ih (Inv_insert hInv (f r))

theorem Inv_fromList (hash : K → Nat) (ps : List (K × V)) :
    Inv (fromList hash ps) :=
  Inv_foldl_insert ps (fun p => p) (Inv_mkEmpty hash)

theorem Inv_copy (m : HashMap K V) : Inv m.copy :=
  Inv_foldl_insert m.element_list_ (fun r => r.2) (Inv_mkEmpty m.hasher_)

theorem Inv_opAssign {self : HashMap K V} (other : HashMap K V)
    (hs : Inv self) (b : Bool) : Inv (opAssign self other b) := by
  cases b
  · show Inv (other.element_list_.foldl (fun a r => a.insert r.2)
      { self with
        size_ := 0
        hasher_ := other.hasher_
        table_size_ := initialSize_
        hash_map_ := List.replicate initialSize_ []
        element_list_ := [] })
    exact Inv_foldl_insert _ _ (Inv_reset self.next_id_ other.hasher_)
  · exact hs

theorem Inv_opIndex [Inhabited V] {m : HashMap K V} (hInv : Inv m) (key : K) :
    Inv (m.opIndex key).2 := by
  unfold opIndex
  cases h : m.find key with
  | some id => exact hInv
  | none => exact Inv_insert hInv _

/-- The states a `HashMap` object can be in: some constructor has run,
followed by any sequence of public mutating operations. -/
inductive Reachable [Inhabited V] : HashMap K V → Prop where
  | mk_empty (hash : K → Nat) : Reachable (mkEmpty hash)
  | mk_fromList (hash : K → Nat) (ps : List (K × V)) : Reachable (fromList hash ps)
  | mk_copy {m : HashMap K V} : Reachable m → Reachable m.copy
  | step_insert {m : HashMap K V} (e : K × V) : Reachable m → Reachable (m.insert e)
  | step_erase {m : HashMap K V} (key : K) : Reachable m → Reachable (m.erase key)
  | step_clear {m : HashMap K V} : Reachable m → Reachable m.clear
  | step_index {m : HashMap K V} (key : K) : Reachable m → Reachable (m.opIndex key).2
  | step_assign {m other : HashMap K V} (b : Bool) :
      Reachable m → Reachable other → Reachable (opAssign m other b)

theorem Reachable_Inv [Inhabited V] {m : HashMap K V} (h : Reachable m) :
    Inv m := by
  induction h with
  | mk_empty hash => exact Inv_mkEmpty hash
  | mk_fromList hash ps => exact Inv_fromList hash ps
  | mk_copy _ _ => exact Inv_copy _
  | step_insert e _ ih => exact Inv_insert ih e
  | step_erase key _ ih => exact Inv_erase ih key
  | step_clear _ _ => exact Inv_clear _
  | step_index key _ ih => exact Inv_opIndex ih key
  | step_assign b _ _ ih _ => exact Inv_opAssign _ ih b

/-!
## Replayed insertion of fresh keys prepends, so it reverses the order
-/

theorem foldl_insert_toPairs (ps : List (K × V)) {acc : HashMap K V}
    (hInv : Inv acc) (hnd : (ps.map Prod.fst).Nodup)
    (hdisj : ∀ p ∈ ps, p.1 ∉ acc.keys) :
    (ps.foldl (fun a p => a.insert p) acc).toPairs = ps.reverse ++ acc.toPairs := by
  induction ps generalizing acc with
  | nil => simp
  | cons p ps ih =>
    have hp : p.1 ∉ acc.keys := hdisj p (List.mem_cons_self _ _)
    have hkeys : (acc.insert p).keys = p.1 :: acc.keys := insert_keys_of_not_mem hp
    have htp : (acc.insert p).toPairs = p :: acc.toPairs := insert_toPairs_of_not_mem hp
    rw [List.map_cons] at hnd
    obtain ⟨hp_not, hnd'⟩ := List.nodup_cons.mp hnd
    have hdisj' : ∀ q ∈ ps, q.1 ∉ (acc.insert p).keys := by
      intro q hq
      rw [hkeys]
      intro hmem
      rcases List.mem_cons.mp hmem with h1 | h1
      · apply hp_not
        rw [← h1]
        exact List.mem_map_of_mem Prod.fst hq
      · exact hdisj q (List.mem_cons_of_mem _ hq) h1
    rw [List.foldl_cons, ih (Inv_insert hInv p) hnd' hdisj', htp]
    simp

/-!
## The claims
-/

/-- Claim C1 as stated is false: after the first insertion into a freshly
constructed map, `size() = 1` and `table_size = 2`, so `cardinality * 2 <
table_size` does NOT hold (the code keeps only `cardinality * 2 ≤
table_size`, matching its own comment `kLoadFactor_ = 2; // min
table_size_/cardinality`). -/
theorem C1_strict_load_factor_counterexample :
    ¬ ((((mkEmpty (fun n => n) : HashMap Nat Nat).insert (1, 0)).size_) * 2 <
      ((mkEmpty (fun n => n) : HashMap Nat Nat).insert (1, 0)).table_size_) := by
  decide

/-- Claim C1 (amended): after any insertion into a well-formed map state,
the non-strict load-factor bound `cardinality * 2 ≤ table_size` holds. -/
theorem C1_load_factor_after_insert {m : HashMap K V} (hInv : Inv m)
    (e : K × V) : (m.insert e).size_ * 2 ≤ (m.insert e).table_size_ :=
  (Inv_insert hInv e).hload

/-- Witness for C1: the amended bound at a concrete insertion. -/
theorem C1_load_factor_witness :
    (((mkEmpty (fun n => n) : HashMap Nat Nat).insert (1, 0)).size_) * 2 ≤
      ((mkEmpty (fun n => n) : HashMap Nat Nat).insert (1, 0)).table_size_ :=
  C1_load_factor_after_insert (Inv_mkEmpty _) (1, 0)

/-- Claim C2 as stated is false: the copy constructor replays `insert`
(which prepends to the record store) over the source's iteration order, so
the copy iterates in the REVERSE order of the source, not the same order.
Concretely, a map iterating as `[(2,20), (1,10)]` copies to a map
iterating as `[(1,10), (2,20)]`. -/
theorem C2_copy_order_counterexample :
    (copy ((((mkEmpty (fun n => n) : HashMap Nat Nat).insert (1, 10)).insert
        (2, 20)))).toPairs ≠
      ((((mkEmpty (fun n => n) : HashMap Nat Nat).insert (1, 10)).insert
        (2, 20))).toPairs := by
  decide

/-- Claim C2 (amended): the copy is built by replaying `insert` over the
source's iteration order into a fresh initial-size table, and because
`insert` prepends, iterating the copy yields exactly the REVERSE of the
source's `(key, value)` sequence. -/
theorem C2_copy_reverses_iteration {m : HashMap K V} (hInv : Inv m) :
    m.copy.toPairs = m.toPairs.reverse := by
  have hfold : m.copy =
      m.toPairs.foldl (fun a p => a.insert p) (mkEmpty m.hasher_) := by
    unfold copy toPairs
    exact (List.foldl_map _ _ _ _).symm
  have hnd : (m.toPairs.map Prod.fst).Nodup := by
    have hmm : m.toPairs.map Prod.fst = m.keys := by
      unfold toPairs keys
      rw [List.map_map]
      rfl
    rw [hmm]
    exact hInv.hkeynd
  have hdisj : ∀ p ∈ m.toPairs, p.1 ∉ (mkEmpty m.hasher_ : HashMap K V).keys := by
    intro p _
    show p.1 ∉ (mkEmpty m.hasher_ : HashMap K V).keys
    simp [keys, mkEmpty]
  rw [hfold, foldl_insert_toPairs _ (Inv_mkEmpty _) hnd hdisj]
  simp [toPairs, mkEmpty]

/-- Witness for C2: the reversal at a concrete two-element map. -/
theorem C2_copy_reverses_witness :
    (copy ((((mkEmpty (fun n => n) : HashMap Nat Nat).insert (1, 10)).insert
        (2, 20)))).toPairs =
      ((((mkEmpty (fun n => n) : HashMap Nat Nat).insert (1, 10)).insert
        (2, 20))).toPairs.reverse :=
  C2_copy_reverses_iteration (Inv_insert (Inv_insert (Inv_mkEmpty _) (1, 10)) (2, 20))

/-- Claim C3: inserting `(1,"a")`, `(2,"b")`, `(3,"c")` into a fresh map
(table_size 2): no growth during the first insert, growth to 4 during the
second, to 8 during the third; final `size() = 3`, `table_size = 8`, and
iteration order `[(3,"c"), (2,"b"), (1,"a")]` (most recent first). -/
theorem C3_growth_scenario :
    (mkEmpty (fun n => n) : HashMap Nat String).table_size_ = 2 ∧
    ((mkEmpty (fun n => n) : HashMap Nat String).insert (1, "a")).table_size_ = 2 ∧
    ((mkEmpty (fun n => n) : HashMap Nat String).insert (1, "a")).size_ = 1 ∧
    (((mkEmpty (fun n => n) : HashMap Nat String).insert (1, "a")).insert
      (2, "b")).table_size_ = 4 ∧
    ((((mkEmpty (fun n => n) : HashMap Nat String).insert (1, "a")).insert
      (2, "b")).insert (3, "c")).table_size_ = 8 ∧
    ((((mkEmpty (fun n => n) : HashMap Nat String).insert (1, "a")).insert
      (2, "b")).insert (3, "c")).size_ = 3 ∧
    ((((mkEmpty (fun n => n) : HashMap Nat String).insert (1, "a")).insert
      (2, "b")).insert (3, "c")).toPairs = [(3, "c"), (2, "b"), (1, "a")] := by
  decide

/-- Claim C4 as stated ("for every map ...") is false when the key is
already present before the two inserts: in a map already holding `(1, 5)`,
running `insert((1, 6)); insert((1, 7))` leaves the value at 1 equal to 5,
not to the claimed `v1 = 6`. -/
theorem C4_first_write_counterexample :
    ¬ (((((mkEmpty (fun n => n) : HashMap Nat Nat).insert (1, 5)).insert
        (1, 6)).insert (1, 7)).valueAt 1 = some 6) := by
  decide

/-- Claim C4 (amended): when `k` is not already present, `insert((k, v1));
insert((k, v2))` leaves the value stored at `k` equal to `v1`; and in
general an insert whose key is already present does not modify the stored
elements. -/
theorem C4_first_write_wins {m : HashMap K V} (hInv : Inv m) {k : K}
    {v1 v2 : V} (hne : v1 ≠ v2) :
    (k ∉ m.keys →
      ((m.insert (k, v1)).insert (k, v2)).valueAt k = some v1) ∧
    (∀ v : V, k ∈ m.keys → (m.insert (k, v)).element_list_ = m.element_list_) := by
  constructor
  · intro hk
    have hInv1 : Inv (m.insert (k, v1)) := Inv_insert hInv (k, v1)
    have htp : (m.insert (k, v1)).toPairs = (k, v1) :: m.toPairs :=
      insert_toPairs_of_not_mem hk
    have hkeys : (m.insert (k, v1)).keys = k :: m.keys :=
      insert_keys_of_not_mem hk
    have hmem2 : k ∈ (m.insert (k, v1)).keys := by
      rw [hkeys]
      exact List.mem_cons_self _ _
    have hlist : ((m.insert (k, v1)).insert (k, v2)).element_list_ =
        (m.insert (k, v1)).element_list_ :=
      insert_element_list_of_mem hInv1 hmem2
    have htp2 : ((m.insert (k, v1)).insert (k, v2)).toPairs =
        (k, v1) :: m.toPairs := by
      unfold toPairs
      rw [hlist]
      exact htp
    exact (valueAt_some_iff (Inv_insert hInv1 (k, v2))).mpr
      (by rw [htp2]; exact List.mem_cons_self _ _)
  · intro v hk
    exact insert_element_list_of_mem hInv hk

/-- Witness for C4: first-write-wins at a concrete fresh key. -/
theorem C4_first_write_witness :
    (((mkEmpty (fun n => n) : HashMap Nat Nat).insert (1, 10)).insert
      (1, 20)).valueAt 1 = some 10 :=
  (C4_first_write_wins (Inv_mkEmpty (fun n => n)) (by decide)).1 (by decide)

/-- Claim C5: in every `insert` call the resize check precedes the
duplicate check, so `table_size` is doubled exactly when `cardinality *
kLoadFactor >= table_size` held at entry - for any inserted pair,
including ones whose key is already present - and is left unchanged
otherwise; in particular `table_size` never decreases across an insert. -/
theorem C5_resize_before_duplicate_check (m : HashMap K V) (e : K × V) :
    (m.insert e).table_size_ =
      (if m.size_ * kLoadFactor_ ≥ m.table_size_ then m.table_size_ * 2
       else m.table_size_) ∧
    m.table_size_ ≤ (m.insert e).table_size_ := by
  have h1 : (m.insert e).table_size_ = m.grown.table_size_ := insert_table m e
  constructor
  · unfold grown at h1
    by_cases hc : m.size_ * kLoadFactor_ ≥ m.table_size_
    · rw [h1, if_pos hc, if_pos hc, DoubleSize_table]
    · rw [h1, if_neg hc, if_neg hc]
  · rw [h1]
    exact grown_table_ge m

/-- Claim C6: `operator[](k)` returns the stored value and leaves the map
unchanged when `k` is present; when `k` is absent it inserts `(k,
default)` and returns that default, after which the key is stored with the
default value and a second `operator[](k)` returns the same stored value
without further change. -/
theorem C6_opIndex_spec [Inhabited V] {m : HashMap K V} (hInv : Inv m)
    (k : K) :
    (∀ v : V, (k, v) ∈ m.toPairs → m.opIndex k = (v, m)) ∧
    (k ∉ m.keys →
      (m.opIndex k).1 = (default : V) ∧
      ((m.opIndex k).2).valueAt k = some (default : V) ∧
      ((m.opIndex k).2).opIndex k = ((default : V), (m.opIndex k).2)) := by
  have hpresent : ∀ (mm : HashMap K V), Inv mm → ∀ v : V,
      (k, v) ∈ mm.toPairs → mm.opIndex k = (v, mm) := by
    intro mm hmm v hv
    have hval : mm.valueAt k = some v := (valueAt_some_iff hmm).mpr hv
    unfold valueAt at hval
    cases hfind : mm.find k with
    | none =>
      rw [hfind] at hval
      simp at hval
    | some id =>
      rw [hfind] at hval
      have hval' : ((mm.deref id).map fun r => r.2) = some v := hval
      unfold opIndex
      rw [hfind]
      show (((mm.deref id).map fun r => r.2).getD default, mm) = (v, mm)
      rw [hval']
      rfl
  constructor
  · exact fun v hv => hpresent m hInv v hv
  · intro hk
    have hfind : m.find k = none := find_eq_none_of_not_mem hk
    have hstate : (m.opIndex k).2 = m.insert (k, (default : V)) := by
      unfold opIndex
      rw [hfind]
    have hInv1 : Inv (m.insert (k, (default : V))) := Inv_insert hInv _
    have htp : (m.insert (k, (default : V))).toPairs =
        (k, (default : V)) :: m.toPairs := insert_toPairs_of_not_mem hk
    have hval : (m.insert (k, (default : V))).valueAt k = some default :=
      (valueAt_some_iff hInv1).mpr (by rw [htp]; exact List.mem_cons_self _ _)
    refine ⟨?_, ?_, ?_⟩
    · unfold opIndex
      rw [hfind]
      show ((m.insert (k, (default : V))).valueAt k).getD default = default
      rw [hval]
      rfl
    · rw [hstate]
      exact hval
    · rw [hstate]
      exact hpresent _ hInv1 default (by rw [htp]; exact List.mem_cons_self _ _)

/-- Witness for C6: a fresh key receives the default value. -/
theorem C6_opIndex_witness :
    ((mkEmpty (fun n => n) : HashMap Nat Nat).opIndex 5).1 = 0 ∧
    (((mkEmpty (fun n => n) : HashMap Nat Nat).opIndex 5).2).valueAt 5 = some 0 :=
  ⟨((C6_opIndex_spec (Inv_mkEmpty (fun n => n)) 5).2 (by decide)).1,
    (((C6_opIndex_spec (Inv_mkEmpty (fun n => n)) 5).2 (by decide)).2).1⟩

/-- Claim C7: `at(k)` fails with the out-of-range error iff `k` is absent,
and a successful `at(k)` returns a value actually stored at `k`.  `at` is
a `const` member: it is modelled as a pure function of the state, so a
failing call leaves the container untouched by construction. -/
theorem C7_at_spec [Inhabited V] {m : HashMap K V} (hInv : Inv m) (k : K) :
    (m.at' k = .error "Bad request" ↔ k ∉ m.keys) ∧
    (∀ v : V, m.at' k = .ok v → (k, v) ∈ m.toPairs) := by
  cases hfind : m.find k with
  | some id =>
    obtain ⟨v0, hder, hmem0⟩ := RecordInMap_some hfind
    have hmem : k ∈ m.keys := List.mem_map.mpr ⟨(id, k, v0), hmem0, rfl⟩
    have hat : m.at' k = .ok (((m.deref id).map fun r => r.2).getD default) := by
      unfold at'
      rw [hfind]
    constructor
    · constructor
      · intro herr
        rw [hat] at herr
        exact absurd herr (by simp)
      · intro hnot
        exact absurd hmem hnot
    · intro v hok
      rw [hat] at hok
      have hveq : ((m.deref id).map fun r => r.2).getD default = v := by
        simpa using hok
      rw [hder] at hveq
      simp at hveq
      rw [← hveq]
      exact List.mem_map.mpr ⟨(id, k, v0), hmem0, rfl⟩
  | none =>
    have hnot : k ∉ m.keys := by
      intro hmem
      have := find_isSome_of_mem hInv hmem
      rw [hfind] at this
      simp at this
    have hat : m.at' k = .error "Bad request" := by
      unfold at'
      rw [hfind]
    refine ⟨⟨fun _ => hnot, fun _ => hat⟩, ?_⟩
    intro v hok
    rw [hat] at hok
    exact absurd hok (by simp)

/-- Witness for C7: `at` on an absent key of a concrete map fails. -/
theorem C7_at_witness :
    (mkEmpty (fun n => n) : HashMap Nat Nat).at' 3 = .error "Bad request" ↔
      3 ∉ (mkEmpty (fun n => n) : HashMap Nat Nat).keys :=
  (C7_at_spec (Inv_mkEmpty (fun n => n)) 3).1

/-- Claim C8: after `erase(k)` a subsequent `find(k)` returns the end
sentinel; and if `k` is absent, `erase(k)` returns the state completely
unchanged (same `size()`, same stored elements) and signals no error
(erase is total). -/
theorem C8_erase_spec {m : HashMap K V} (hInv : Inv m) (k : K) :
    (m.erase k).find k = none ∧ (k ∉ m.keys → m.erase k = m) :=
  ⟨find_eq_none_of_not_mem (erase_keys_not_mem hInv k),
    fun h => erase_of_not_mem h⟩

/-- Witness for C8: erase-then-find at a concrete one-element map. -/
theorem C8_erase_witness :
    (((mkEmpty (fun n => n) : HashMap Nat Nat).insert (1, 10)).erase 1).find 1 =
      none :=
  (C8_erase_spec (Inv_insert (Inv_mkEmpty (fun n => n)) (1, 10)) 1).1

/-- Claim C9: in every reachable map state - after any constructor and any
sequence of public operations, including the resize path that resets and
recounts `size_` - the counter `size_` equals the number of records in the
element list. -/
theorem C9_cardinality_eq_records [Inhabited V] {m : HashMap K V}
    (h : Reachable m) : m.size_ = m.element_list_.length :=
  (Reachable_Inv h).hsize

/-- Witness for C9: the count invariant at a concrete reachable state. -/
theorem C9_cardinality_witness :
    ((mkEmpty (fun n => n) : HashMap Nat Nat).insert (2, 7)).size_ =
      ((mkEmpty (fun n => n) : HashMap Nat Nat).insert (2, 7)).element_list_.length :=
  C9_cardinality_eq_records
    (Reachable.step_insert (2, 7) (Reachable.mk_empty (fun n => n)))

/-- Claim C10: self-assignment (`this == &other`, modelled by the Boolean
flag being true) is the identity: the resulting state is the very same map,
so `size()`, `table_size` and the iterated sequence are all unchanged. -/
theorem C10_self_assignment_identity (m : HashMap K V) :
    opAssign m m true = m ∧
    (opAssign m m true).size_ = m.size_ ∧
    (opAssign m m true).table_size_ = m.table_size_ ∧
    (opAssign m m true).toPairs = m.toPairs := by
  have h : opAssign m m true = m := by
    unfold opAssign
    rfl
  exact ⟨h, by rw [h], by rw [h], by rw [h]⟩

end HashMap

end MyStructure
